import Mathlib

/-!
Verification development for the xgodo CLI's file-reconciliation core.

The repository's core (spec §2, §4) is embedded shallowly:

* `computeGitBlobHash` (src/lib/hash.ts) — the content hasher.  The node
  `crypto` SHA-1 primitive is an external library; it is embedded here as the
  standard FIPS 180-4 SHA-1 over byte lists, with machine words as `Nat`
  reduced `% 2^32`.
* `getAllFiles` / `computeLocalHashes` (src/lib/project.ts) — the local tree
  scanner.  The file system is modelled as a tree of named entries; reading a
  file yields the byte list carried by the tree node.
* `findChangedFiles` (src/lib/project.ts) — the reconciler.  JavaScript
  structures are modelled by association lists: an object's keys are unique and
  enumerate in insertion order, a `Map` built from pairs lets the last
  duplicate win, a `Set` keeps first occurrences in insertion order, and the
  truthiness test `!serverHash` holds for both `undefined` and `""`.
* the hash-mapping update performed by `sync` (src/commands/sync.ts) — the
  network is modelled by explicit parameters: the server manifest, the batch
  upload response, and a fetch oracle `String → Option (List Nat)` whose
  `none` stands for a thrown download error.
-/

namespace Xgodo

/-! ## §4.1 Content Hasher (src/lib/hash.ts)

SHA-1 (FIPS 180-4) over byte lists; words are `Nat` taken `% 2^32`. -/

/-- Reduce to a 32-bit word. -/
def w32 (n : Nat) : Nat := n % 4294967296

/-- Rotate a 32-bit word left by `k` bits (for `n < 2^32`). -/
def rotl (k n : Nat) : Nat := w32 (n * 2 ^ k + n / 2 ^ (32 - k))

/-- The SHA-1 round function: Ch for rounds 0–19, parity for 20–39 and 60–79,
Maj for 40–59.  The complement of `b` is `2^32 - 1 - b` for `b < 2^32`. -/
def roundF (i b c d : Nat) : Nat :=
  if i < 20 then (b &&& c) ||| ((4294967295 - b) &&& d)
  else if i < 40 then b ^^^ c ^^^ d
  else if i < 60 then (b &&& c) ||| (b &&& d) ||| (c &&& d)
  else b ^^^ c ^^^ d

/-- The SHA-1 round constants. -/
def roundK (i : Nat) : Nat :=
  if i < 20 then 1518500249
  else if i < 40 then 1859775393
  else if i < 60 then 2400959708
  else 3395469782

/-- Big-endian bytes (`k` of them) of `n`. -/
def beBytes (k n : Nat) : List Nat :=
  (List.range k).map (fun i => n / 2 ^ (8 * (k - 1 - i)) % 256)

/-- SHA-1 padding: a `0x80` byte, zeros to 56 mod 64, then the bit length as
8 big-endian bytes. -/
def padMessage (msg : List Nat) : List Nat :=
  msg ++ 128 :: (List.replicate ((119 - msg.length % 64) % 64) 0 ++ beBytes 8 (msg.length * 8))

/-- The `i`-th big-endian 32-bit word of a 64-byte chunk. -/
def wordAt (chunk : List Nat) (i : Nat) : Nat :=
  chunk.getD (4 * i) 0 * 16777216 + chunk.getD (4 * i + 1) 0 * 65536 +
    chunk.getD (4 * i + 2) 0 * 256 + chunk.getD (4 * i + 3) 0

/-- Extend the 16 message words by `k` scheduled words
(`w[i] = rotl 1 (w[i-3] xor w[i-8] xor w[i-14] xor w[i-16])`). -/
def extendWords (w : List Nat) : Nat → List Nat
  | 0 => w
  | k + 1 =>
    let w' := extendWords w k
    w' ++ [rotl 1 (w'.getD (w'.length - 3) 0 ^^^ w'.getD (w'.length - 8) 0 ^^^
      w'.getD (w'.length - 14) 0 ^^^ w'.getD (w'.length - 16) 0)]

/-- The 80 SHA-1 rounds over the indexed schedule. -/
def mainRounds (ws : List (Nat × Nat)) (st : Nat × Nat × Nat × Nat × Nat) :
    Nat × Nat × Nat × Nat × Nat :=
  ws.foldl
    (fun st iw =>
      match st with
      | (a, b, c, d, e) =>
        (w32 (rotl 5 a + roundF iw.1 b c d + e + roundK iw.1 + iw.2), a, rotl 30 b, c, d))
    st

/-- Compress one 64-byte chunk into the running 5-word state. -/
def processChunk (h : List Nat) (chunk : List Nat) : List Nat :=
  let ws := extendWords ((List.range 16).map (wordAt chunk)) 64
  let st := mainRounds ws.enum (h.getD 0 0, h.getD 1 0, h.getD 2 0, h.getD 3 0, h.getD 4 0)
  [w32 (h.getD 0 0 + st.1), w32 (h.getD 1 0 + st.2.1), w32 (h.getD 2 0 + st.2.2.1),
    w32 (h.getD 3 0 + st.2.2.2.1), w32 (h.getD 4 0 + st.2.2.2.2)]

/-- The five 32-bit words of the SHA-1 digest of a byte list. -/
def sha1Words (msg : List Nat) : List Nat :=
  let padded := padMessage msg
  ((List.range (padded.length / 64)).map (fun i => (padded.drop (64 * i)).take 64)).foldl
    processChunk [1732584193, 4023233417, 2562383102, 271733878, 3285377520]

/-- Lowercase hexadecimal digit for `n < 16`. -/
def hexDigit (n : Nat) : Char :=
  if n < 10 then Char.ofNat (48 + n) else Char.ofNat (87 + n)

/-- The 8 hex characters of a 32-bit word, most significant nibble first. -/
def wordHex (w : Nat) : List Char :=
  (List.range 8).map (fun i => hexDigit (w / 16 ^ (7 - i) % 16))

/-- Lowercase hexadecimal SHA-1 digest of a byte list, as node's
`createHash("sha1").update(store).digest("hex")` returns it. -/
def sha1Hex (msg : List Nat) : String :=
  String.mk (((sha1Words msg).map wordHex).flatten)

/-- The bytes of a string all of whose characters are ASCII (as
`Buffer.from` encodes such a string). -/
def strBytes (s : String) : List Nat := s.data.map Char.toNat

/-- src/lib/hash.ts `computeGitBlobHash`: SHA-1 of
`"blob " ++ content.length ++ "\0" ++ content`, hex encoded. -/
def computeGitBlobHash (content : List Nat) : String :=
  sha1Hex (strBytes ("blob " ++ toString content.length ++ "\x00") ++ content)

/-- The hash C2's spec sentence describes: the lowercase hex SHA-1 digest of
the concatenation of the ASCII header `blob `, the decimal byte length, one
NUL byte, and the content. -/
def blobHashDescribed (content : List Nat) : String :=
  sha1Hex (strBytes "blob " ++ strBytes (toString content.length) ++ [0] ++ content)

/-- The sixteen lowercase hexadecimal characters. -/
def hexLowerChars : List Char := "0123456789abcdef".data

/-! ## §4.2 Local Tree Scanner (src/lib/project.ts)

The file system is a tree of named entries; `readdirSync` of a directory is its
entry list, and `existsSync` of a sibling path is a name search in that list.
JavaScript string operations are modelled on the character list of the
string. -/

/-- A file-system entry: a regular file with its content bytes, or a
directory with its entries. -/
inductive FSEntry where
  | file (name : String) (content : List Nat)
  | dir (name : String) (entries : List FSEntry)

/-- `entry.name` of a directory entry. -/
def FSEntry.name : FSEntry → String
  | .file n _ => n
  | .dir n _ => n

/-- `entry.isDirectory()`. -/
def FSEntry.isDir : FSEntry → Bool
  | .file _ _ => false
  | .dir _ _ => true

/-- JavaScript `s.startsWith(t)`. -/
def jsStartsWith (s t : String) : Bool := t.data.isPrefixOf s.data

/-- JavaScript `s.endsWith(t)`. -/
def jsEndsWith (s t : String) : Bool := t.data.isSuffixOf s.data

/-- JavaScript `s.slice(0, -k)`: the string without its last `k`
characters. -/
def jsDropRight (s : String) (k : Nat) : String :=
  String.mk (s.data.take (s.data.length - k))

/-- `path.join` on a possibly empty base, with the forward-slash separator the
scanner's relative paths use. -/
def joinPath (base name : String) : String :=
  if base = "" then name else base ++ "/" ++ name

/-- `fs.existsSync(dir/n)`: some entry of the directory is named `n`. -/
def hasEntryNamed (entries : List FSEntry) (n : String) : Bool :=
  entries.any (fun e => e.name == n)

/-- The `continue` conditions of the `getAllFiles` loop, in source order:
hidden names except `.gitignore`; a directory named `types`; any entry named
`node_modules`; a name ending in `.js` when `existsSync` finds a sibling entry
named with the same base and `.ts`.  All four are tested before the
directory/file branch. -/
def skipEntry (siblings : List FSEntry) (e : FSEntry) : Bool :=
  (jsStartsWith e.name "." && !(e.name == ".gitignore")) ||
  (e.name == "types" && e.isDir) ||
  (e.name == "node_modules") ||
  (jsEndsWith e.name ".js" && hasEntryNamed siblings (jsDropRight e.name 3 ++ ".ts"))

mutual

/-- Process one not-skipped entry of `getAllFiles`: a file is recorded with its
relative path and content, a directory is recursed into. -/
def scanOne : FSEntry → String → List (String × List Nat)
  | .file n c, base => [(joinPath base n, c)]
  | .dir n sub, base => scanDirEntries sub sub (joinPath base n)
termination_by e _ => sizeOf e

/-- The `getAllFiles` loop over the entries of one directory: `all` is the full
`readdirSync` listing (searched by the sibling `.ts` check), `pending` the
entries still to process. -/
def scanDirEntries (all pending : List FSEntry) (base : String) :
    List (String × List Nat) :=
  match pending with
  | [] => []
  | e :: rest => (if skipEntry all e then [] else scanOne e base) ++ scanDirEntries all rest base
termination_by sizeOf pending

end

/-- src/lib/project.ts `getAllFiles` on a root directory whose listing is
`root`; the returned `fullPath` (used only to read the file) is replaced by
carrying the content itself. -/
def getAllFiles (root : List FSEntry) : List (String × List Nat) :=
  scanDirEntries root root ""

/-- src/lib/project.ts `computeLocalHashes`: the blob hash of every scanned
file's content, keyed by relative path. -/
def computeLocalHashes (root : List FSEntry) : List (String × String) :=
  (getAllFiles root).map (fun pr => (pr.1, computeGitBlobHash pr.2))

/-! ## §4.3 Reconciler (src/lib/project.ts `findChangedFiles`) -/

/-- One record of the server manifest as the reconciliation code reads it
(src/lib/types.ts `ProjectFile`, restricted to the two fields the code uses;
the `size` field is never read by the reconciler or by sync). -/
structure ServerFile where
  path : String
  hash : String
deriving DecidableEq

/-- The local hash mapping (types.ts `LocalHashes`): a JavaScript object
modelled as an association list in key-insertion order.  `Object.entries` and
`Object.keys` enumerate it in this order and its keys are unique. -/
abbrev LocalHashes := List (String × String)

/-- `new Map(pairs).get(p)`: with duplicate keys the last entry wins. -/
def mapGet (l : List (String × String)) (p : String) : Option String :=
  (l.reverse.find? (fun q => q.1 == p)).map (fun q => q.2)

/-- The `serverHashMap` lookup of `findChangedFiles`. -/
def serverGet (serverHashes : List ServerFile) (p : String) : Option String :=
  mapGet (serverHashes.map (fun f => (f.path, f.hash))) p

/-- JavaScript `Set` iteration order: first occurrences, in insertion
order. -/
def dedupFirstAux (seen : List String) : List String → List String
  | [] => []
  | p :: rest =>
    if p ∈ seen then dedupFirstAux seen rest else p :: dedupFirstAux (p :: seen) rest

/-- The elements of `new Set(l)` in iteration order. -/
def dedupFirst (l : List String) : List String := dedupFirstAux [] l

/-- The three path lists `findChangedFiles` returns. -/
structure ChangeSet where
  upload : List String
  download : List String
  delete : List String
deriving DecidableEq

/-- The body of the local-files loop of `findChangedFiles`: `undefined` (no
server entry) and the empty string are both JavaScript-falsy, so
`if (!serverHash)` takes the new-file branch for either; otherwise
`localHash !== serverHash` uploads the local version. -/
def uploadDecision (serverHashes : List ServerFile) (pr : String × String) : Option String :=
  match serverGet serverHashes pr.1 with
  | none => some pr.1
  | some sh => if sh = "" then some pr.1 else if pr.2 ≠ sh then some pr.1 else none

/-- src/lib/project.ts `findChangedFiles`. -/
def findChangedFiles (localHashes : LocalHashes) (serverHashes : List ServerFile) :
    ChangeSet :=
  let localPaths := localHashes.map Prod.fst
  let serverPaths := dedupFirst (serverHashes.map ServerFile.path)
  ⟨localHashes.filterMap (uploadDecision serverHashes),
    serverPaths.filter (fun p => decide (p ∉ localPaths)),
    []⟩

/-! ## §4.4 Sync orchestration (src/commands/sync.ts `sync`)

Only the hash-mapping data flow is modelled: the network is replaced by
explicit parameters (server manifest, batch upload response, and a download
oracle whose `none` stands for `getProjectFile` throwing). -/

/-- One entry of the batch upload response (types.ts `SyncResult`; the
`compiled` flag is never read by sync, and `errors` is only logged). -/
structure SyncResult where
  path : String
  hash : String
  errors : List String
deriving DecidableEq

/-- JavaScript object assignment `m[p] = h`: replace the value of an existing
key in place, else append the new key. -/
def setHash (m : LocalHashes) (p h : String) : LocalHashes :=
  if m.any (fun q => q.1 == p) then m.map (fun q => if q.1 == p then (q.1, h) else q)
  else m ++ [(p, h)]

/-- JavaScript object property read `m[p]`. -/
def getHash (m : LocalHashes) (p : String) : Option String :=
  (m.find? (fun q => q.1 == p)).map (fun q => q.2)

/-- sync.ts lines 135–136: for each result of the upload response, copy the
server-confirmed hash into the mapping. -/
def applyUploadResults (m : LocalHashes) (results : List SyncResult) : LocalHashes :=
  results.foldl (fun acc r => setHash acc r.path r.hash) m

/-- sync.ts lines 170–173: after writing a downloaded file, copy the
server-reported hash of its path from the manifest into the mapping (when the
manifest has the path). -/
def applyDownload (serverFiles : List ServerFile) (m : LocalHashes) (p : String) :
    LocalHashes :=
  match serverFiles.find? (fun f => f.path == p) with
  | some sf => setHash m p sf.hash
  | none => m

/-- One iteration of the download loop (sync.ts lines 157–177): `fetch`
returning `none` models `getProjectFile` throwing, which the `catch` turns
into a per-file warning (the path is appended to the warning list) before the
loop continues; a successful fetch writes the file and updates the mapping. -/
def downloadStep (fetch : String → Option (List Nat)) (serverFiles : List ServerFile)
    (acc : List String × LocalHashes) (p : String) : List String × LocalHashes :=
  match fetch p with
  | none => (acc.1 ++ [p], acc.2)
  | some _ => (acc.1, applyDownload serverFiles acc.2 p)

/-- The whole download loop: every path is attempted in order, whatever
happened to the earlier ones. -/
def downloadPhase (fetch : String → Option (List Nat)) (serverFiles : List ServerFile)
    (m : LocalHashes) (paths : List String) : List String × LocalHashes :=
  paths.foldl (downloadStep fetch serverFiles) ([], m)

/-- The hash-mapping data flow of a `sync` run that reaches `saveLocalHashes`
(sync.ts lines 104–210): scan result `localHashes`, manifest `serverFiles`,
upload response `results`, download oracle `fetch`.  Returns the download
warnings and the mapping handed to `saveLocalHashes`. -/
def syncModel (localHashes : LocalHashes) (serverFiles : List ServerFile)
    (results : List SyncResult) (fetch : String → Option (List Nat)) :
    List String × LocalHashes :=
  downloadPhase fetch serverFiles (applyUploadResults localHashes results)
    (findChangedFiles localHashes serverFiles).download

/-! ## Spec-side scanner definitions for claim C3

`excludedClaimed` renders C3's exclusion rules in the claim's own words;
`excludedAmended` and `ReachesFile` render the amended rules declaratively. -/

/-- The exclusion rules exactly as claim C3 words them.  They differ from the
code in the compiled-output clause only: the claim excludes a regular FILE
ending in `.js` when a sibling `.ts` FILE with the same base name exists,
while the code tests any entry and any sibling entry. -/
def excludedClaimed (siblings : List FSEntry) (e : FSEntry) : Bool :=
  (jsStartsWith e.name "." && !(e.name == ".gitignore")) ||
  (e.name == "types" && e.isDir) ||
  (e.name == "node_modules") ||
  (!e.isDir && jsEndsWith e.name ".js" &&
    siblings.any (fun x => !x.isDir && x.name == jsDropRight e.name 3 ++ ".ts"))

mutual

/-- The scan that C3's rules, taken literally, would produce. -/
def scanOneClaimed : FSEntry → String → List (String × List Nat)
  | .file n c, base => [(joinPath base n, c)]
  | .dir n sub, base => scanDirEntriesClaimed sub sub (joinPath base n)
termination_by e _ => sizeOf e

/-- The directory loop of the claimed scan. -/
def scanDirEntriesClaimed (all pending : List FSEntry) (base : String) :
    List (String × List Nat) :=
  match pending with
  | [] => []
  | e :: rest =>
    (if excludedClaimed all e then [] else scanOneClaimed e base) ++
      scanDirEntriesClaimed all rest base
termination_by sizeOf pending

end

/-- The amended exclusion rules: hidden names except `.gitignore`; a directory
named `types`; any entry named `node_modules`; any entry — file or directory —
whose name ends in `.js` when a sibling entry of either kind named with the
same base and `.ts` exists. -/
def excludedAmended (siblings : List FSEntry) (e : FSEntry) : Bool :=
  (jsStartsWith e.name "." && !(e.name == ".gitignore")) ||
  (e.name == "types" && e.isDir) ||
  (e.name == "node_modules") ||
  (jsEndsWith e.name ".js" && siblings.any (fun x => x.name == jsDropRight e.name 3 ++ ".ts"))

/-- A chain of entry names reaching a regular file of content `c`, where no
entry along the chain is excluded by the amended rules (so excluded
directories are not descended into). -/
inductive ReachesFile : List FSEntry → List String → List Nat → Prop where
  | here (entries : List FSEntry) (n : String) (c : List Nat) :
      FSEntry.file n c ∈ entries → excludedAmended entries (FSEntry.file n c) = false →
      ReachesFile entries [n] c
  | there (entries : List FSEntry) (n : String) (sub : List FSEntry)
      (p : List String) (c : List Nat) :
      FSEntry.dir n sub ∈ entries → excludedAmended entries (FSEntry.dir n sub) = false →
      ReachesFile sub p c → ReachesFile entries (n :: p) c

/-! ## Theorems: §4.1 Content Hasher (claim C2) -/

theorem strBytes_append (s t : String) : strBytes (s ++ t) = strBytes s ++ strBytes t := by
  simp [strBytes]

theorem processChunk_length (h chunk : List Nat) : (processChunk h chunk).length = 5 := by
  simp [processChunk]

theorem foldl_processChunk_length (bs : List (List Nat)) :
    ∀ h : List Nat, h.length = 5 → (bs.foldl processChunk h).length = 5 := by
  induction bs with
  | nil => intro h hh; simpa using hh
  | cons b bs ih => intro h _; exact ih _ (processChunk_length h b)

theorem sha1Words_length (msg : List Nat) : (sha1Words msg).length = 5 := by
  unfold sha1Words
  exact foldl_processChunk_length _ _ (by simp)

theorem wordHex_length (w : Nat) : (wordHex w).length = 8 := by
  simp [wordHex]

theorem flatten_map_wordHex_length (l : List Nat) :
    ((l.map wordHex).flatten).length = 8 * l.length := by
  induction l with
  | nil => simp
  | cons w l ih => simp [ih, wordHex_length]; ring

theorem hexDigit_mem_of_lt (n : Nat) (h : n < 16) : hexDigit n ∈ hexLowerChars := by
  have hall : ∀ m, m < 16 → hexDigit m ∈ hexLowerChars := by decide
  exact hall n h

theorem sha1Hex_chars (msg : List Nat) : ∀ ch ∈ (sha1Hex msg).data, ch ∈ hexLowerChars := by
  intro ch hch
  simp only [sha1Hex, String.data, List.mem_flatten, List.mem_map] at hch
  obtain ⟨l', ⟨w, _, rfl⟩, hmem⟩ := hch
  simp only [wordHex, List.mem_map, List.mem_range] at hmem
  obtain ⟨i, _, rfl⟩ := hmem
  exact hexDigit_mem_of_lt _ (Nat.mod_lt _ (by norm_num))

theorem sha1Hex_length (msg : List Nat) : (sha1Hex msg).length = 40 := by
  rw [sha1Hex, String.length_mk, flatten_map_wordHex_length, sha1Words_length]

/-- C2: `computeGitBlobHash content` equals the lowercase hexadecimal SHA-1
digest of the concatenation of the ASCII header `blob `, the decimal byte
length of the content, one NUL byte, and the content; the result always has 40
characters, all lowercase hexadecimal.  (Totality and purity hold by
construction: the embedding is a total function of the byte list.) -/
theorem computeGitBlobHash_correct (content : List Nat) :
    computeGitBlobHash content = blobHashDescribed content ∧
    (computeGitBlobHash content).length = 40 ∧
    ∀ ch ∈ (computeGitBlobHash content).data, ch ∈ hexLowerChars := by
  have hdr : computeGitBlobHash content = blobHashDescribed content := by
    unfold computeGitBlobHash blobHashDescribed
    congr 1
    rw [strBytes_append, strBytes_append]
    have hnul : strBytes "\x00" = [0] := by decide
    simp [hnul]
  refine ⟨hdr, ?_, ?_⟩
  · exact sha1Hex_length _
  · exact fun ch hch => sha1Hex_chars _ ch hch

/-! ## Theorems: §4.3 Reconciler (claims C1, C4, C5, C8, C9) -/

theorem mem_dedupFirstAux (l : List String) :
    ∀ (seen : List String) (p : String), p ∈ dedupFirstAux seen l ↔ p ∈ l ∧ p ∉ seen := by
  induction l with
  | nil => intro seen p; simp [dedupFirstAux]
  | cons q rest ih =>
    intro seen p
    by_cases hq : q ∈ seen
    · rw [dedupFirstAux, if_pos hq, ih]
      simp only [List.mem_cons]
      constructor
      · rintro ⟨h1, h2⟩; exact ⟨Or.inr h1, h2⟩
      · rintro ⟨h1 | h1, h2⟩
        · exact absurd (h1 ▸ hq) h2
        · exact ⟨h1, h2⟩
    · rw [dedupFirstAux, if_neg hq]
      simp only [List.mem_cons, ih, List.mem_cons]
      constructor
      · rintro (rfl | ⟨h1, h2⟩)
        · exact ⟨Or.inl rfl, hq⟩
        · exact ⟨Or.inr h1, fun hc => h2 (Or.inr hc)⟩
      · rintro ⟨rfl | h1, h2⟩
        · exact Or.inl rfl
        · by_cases hpq : p = q
          · exact Or.inl hpq
          · exact Or.inr ⟨h1, by simp [hpq, h2]⟩

theorem nodup_dedupFirstAux (l : List String) :
    ∀ seen : List String, (dedupFirstAux seen l).Nodup := by
  induction l with
  | nil => intro seen; simp [dedupFirstAux]
  | cons q rest ih =>
    intro seen
    by_cases hq : q ∈ seen
    · rw [dedupFirstAux, if_pos hq]; exact ih seen
    · rw [dedupFirstAux, if_neg hq]
      refine List.nodup_cons.mpr ⟨?_, ih _⟩
      intro hmem
      exact ((mem_dedupFirstAux rest (q :: seen) q).mp hmem).2 (List.mem_cons_self q seen)

theorem mem_upload_iff (lh : LocalHashes) (s : List ServerFile) (p : String) :
    p ∈ (findChangedFiles lh s).upload ↔
      ∃ h, (p, h) ∈ lh ∧ (serverGet s p = none ∨ serverGet s p = some "" ∨
        ∃ sh, serverGet s p = some sh ∧ sh ≠ "" ∧ h ≠ sh) := by
  show p ∈ lh.filterMap (uploadDecision s) ↔ _
  rw [List.mem_filterMap]
  constructor
  · rintro ⟨⟨q, h⟩, hmem, hdec⟩
    unfold uploadDecision at hdec
    split at hdec
    · rename_i hsg
      obtain rfl : q = p := by simpa using hdec
      exact ⟨h, hmem, Or.inl hsg⟩
    · rename_i sh hsg
      split_ifs at hdec with h1 h2
      · obtain rfl : q = p := by simpa using hdec
        refine ⟨h, hmem, Or.inr (Or.inl ?_)⟩
        rw [← h1]; exact hsg
      · obtain rfl : q = p := by simpa using hdec
        exact ⟨h, hmem, Or.inr (Or.inr ⟨sh, hsg, h1, h2⟩)⟩
  · rintro ⟨h, hmem, hcond⟩
    refine ⟨(p, h), hmem, ?_⟩
    unfold uploadDecision
    rcases hcond with hnone | hempty | ⟨sh, hsh, hne, hne2⟩
    · rw [hnone]
    · rw [hempty]
      show (if ("" : String) = "" then some p else _) = some p
      rw [if_pos rfl]
    · rw [hsh]
      show (if sh = "" then some p else if h ≠ sh then some p else none) = some p
      rw [if_neg hne, if_pos hne2]

theorem mem_download_iff (lh : LocalHashes) (s : List ServerFile) (p : String) :
    p ∈ (findChangedFiles lh s).download ↔
      p ∈ s.map ServerFile.path ∧ p ∉ lh.map Prod.fst := by
  show p ∈ (dedupFirst (s.map ServerFile.path)).filter
      (fun p => decide (p ∉ lh.map Prod.fst)) ↔ _
  rw [List.mem_filter, dedupFirst, mem_dedupFirstAux]
  simp

theorem uploadDecision_some_fst (s : List ServerFile) (pr : String × String) (p : String)
    (h : uploadDecision s pr = some p) : p = pr.1 := by
  unfold uploadDecision at h
  split at h
  · exact (Option.some.inj h).symm
  · split_ifs at h <;> exact (Option.some.inj h).symm

theorem upload_sublist (lh : LocalHashes) (s : List ServerFile) :
    (findChangedFiles lh s).upload.Sublist (lh.map Prod.fst) := by
  show (lh.filterMap (uploadDecision s)).Sublist (lh.map Prod.fst)
  induction lh with
  | nil => simp
  | cons pr rest ih =>
    rw [List.filterMap_cons, List.map_cons]
    rcases hdec : uploadDecision s pr with _ | q
    · exact ih.cons _
    · obtain rfl : q = pr.1 := uploadDecision_some_fst s pr q hdec
      exact ih.cons₂ _

theorem upload_subset_keys (lh : LocalHashes) (s : List ServerFile) :
    ∀ p ∈ (findChangedFiles lh s).upload, p ∈ lh.map Prod.fst := by
  intro p hp
  obtain ⟨h, hmem, _⟩ := (mem_upload_iff lh s p).mp hp
  exact List.mem_map.mpr ⟨(p, h), hmem, rfl⟩

theorem download_nodup (lh : LocalHashes) (s : List ServerFile) :
    (findChangedFiles lh s).download.Nodup := by
  show ((dedupFirst (s.map ServerFile.path)).filter _).Nodup
  exact (nodup_dedupFirstAux _ _).filter _

theorem keys_nodup_val_eq {lh : LocalHashes} (hnd : (lh.map Prod.fst).Nodup)
    {p a b : String} (ha : (p, a) ∈ lh) (hb : (p, b) ∈ lh) : a = b := by
  induction lh with
  | nil => cases ha
  | cons q rest ih =>
    rw [List.map_cons, List.nodup_cons] at hnd
    rcases List.mem_cons.mp ha with rfl | ha'
    · rcases List.mem_cons.mp hb with heq | hb'
      · exact (congrArg Prod.snd heq.symm)
      · exact absurd (List.mem_map.mpr ⟨(p, b), hb', rfl⟩) hnd.1
    · rcases List.mem_cons.mp hb with rfl | hb'
      · exact absurd (List.mem_map.mpr ⟨(p, a), ha', rfl⟩) hnd.1
      · exact ih hnd.2 ha' hb'

/-- C1 (amended): findChangedFiles classifies as the spec's algorithm, with
the proviso the code's JavaScript-falsy test forces: a server entry whose
fingerprint is the empty string is treated as absent from the lookup, so its
path is uploaded even when the local fingerprint equals it.  Every local path
absent from the server lookup is uploaded; every local path whose server
fingerprint is the empty string is uploaded; every local path with a
differing (nonempty) server fingerprint is uploaded; every local path whose
fingerprint equals its nonempty server fingerprint is in neither list; every
server path not among the local keys is downloaded. -/
theorem findChangedFiles_classification (lh : LocalHashes) (s : List ServerFile)
    (hnd : (lh.map Prod.fst).Nodup) :
    (∀ p h, (p, h) ∈ lh → serverGet s p = none → p ∈ (findChangedFiles lh s).upload) ∧
    (∀ p h, (p, h) ∈ lh → serverGet s p = some "" → p ∈ (findChangedFiles lh s).upload) ∧
    (∀ p h sh, (p, h) ∈ lh → serverGet s p = some sh → sh ≠ "" → h ≠ sh →
      p ∈ (findChangedFiles lh s).upload) ∧
    (∀ p h, (p, h) ∈ lh → serverGet s p = some h → h ≠ "" →
      p ∉ (findChangedFiles lh s).upload ∧ p ∉ (findChangedFiles lh s).download) ∧
    (∀ f ∈ s, f.path ∉ lh.map Prod.fst → f.path ∈ (findChangedFiles lh s).download) := by
  refine ⟨?_, ?_, ?_, ?_, ?_⟩
  · intro p h hmem hsg
    exact (mem_upload_iff lh s p).mpr ⟨h, hmem, Or.inl hsg⟩
  · intro p h hmem hsg
    exact (mem_upload_iff lh s p).mpr ⟨h, hmem, Or.inr (Or.inl hsg)⟩
  · intro p h sh hmem hsg hne hne2
    exact (mem_upload_iff lh s p).mpr ⟨h, hmem, Or.inr (Or.inr ⟨sh, hsg, hne, hne2⟩)⟩
  · intro p h hmem hsg hne
    constructor
    · intro hup
      obtain ⟨h', hmem', hcond⟩ := (mem_upload_iff lh s p).mp hup
      obtain rfl : h' = h := keys_nodup_val_eq hnd hmem' hmem
      rcases hcond with hnone | hempty | ⟨sh, hsh, hshne, hne2⟩
      · rw [hnone] at hsg; cases hsg
      · rw [hempty] at hsg; exact hne (Option.some.inj hsg).symm
      · rw [hsh] at hsg; exact hne2 (Option.some.inj hsg).symm
    · intro hdl
      exact ((mem_download_iff lh s p).mp hdl).2 (List.mem_map.mpr ⟨(p, h), hmem, rfl⟩)
  · intro f hf hnk
    exact (mem_download_iff lh s f.path).mpr ⟨List.mem_map.mpr ⟨f, hf, rfl⟩, hnk⟩

/-- Witness for the amended C1: on local = {a ↦ h1, b ↦ h2, d ↦ ""} and
server = [(a, h1), (b, zz), (c, h3), (d, "")], the server-only path c is
downloaded. -/
theorem findChangedFiles_classification_witness :
    "c" ∈ (findChangedFiles [("a", "h1"), ("b", "h2"), ("d", "")]
      [⟨"a", "h1"⟩, ⟨"b", "zz"⟩, ⟨"c", "h3"⟩, ⟨"d", ""⟩]).download :=
  (findChangedFiles_classification [("a", "h1"), ("b", "h2"), ("d", "")]
      [⟨"a", "h1"⟩, ⟨"b", "zz"⟩, ⟨"c", "h3"⟩, ⟨"d", ""⟩]
      (by decide)).2.2.2.2 ⟨"c", "h3"⟩ (by decide) (by decide)

/-- C1 as stated is false on the code: with local = {a ↦ ""} and
server = [(a, "")] the local fingerprint equals the server's, yet the path is
uploaded, because `if (!serverHash)` is taken for the empty string. -/
theorem findChangedFiles_claim_counterexample :
    ("a", "") ∈ ([("a", "")] : LocalHashes) ∧
    serverGet [⟨"a", ""⟩] "a" = some "" ∧
    "a" ∈ (findChangedFiles [("a", "")] [⟨"a", ""⟩]).upload := by
  refine ⟨by decide, by decide, by decide⟩

/-- C4: the delete list is always empty, and a path the server has that is not
a local key is classified into download, never delete. -/
theorem findChangedFiles_delete_empty (lh : LocalHashes) (s : List ServerFile) :
    (findChangedFiles lh s).delete = [] ∧
    (∀ p, p ∈ s.map ServerFile.path → p ∉ lh.map Prod.fst →
      p ∈ (findChangedFiles lh s).download) := by
  refine ⟨rfl, ?_⟩
  intro p h1 h2
  exact (mem_download_iff lh s p).mpr ⟨h1, h2⟩

theorem disjoint_upload_download (lh : LocalHashes) (s : List ServerFile) :
    ∀ p, p ∈ (findChangedFiles lh s).upload → p ∈ (findChangedFiles lh s).download →
      False := by
  intro p hu hd
  exact ((mem_download_iff lh s p).mp hd).2 (upload_subset_keys lh s p hu)

/-- C5: no path is in both the upload and the download list of one
findChangedFiles pass. -/
theorem findChangedFiles_disjoint (lh : LocalHashes) (s : List ServerFile) :
    List.Disjoint (findChangedFiles lh s).upload (findChangedFiles lh s).download :=
  fun _ hu hd => disjoint_upload_download lh s _ hu hd

/-- C8: findChangedFiles is a total function of its two inputs (it is defined
for every pair, as its Lean type shows), and empty inputs yield empty upload,
download and delete lists. -/
theorem findChangedFiles_empty : findChangedFiles [] [] = ⟨[], [], []⟩ := rfl

/-- C9: the upload and download lists contain no duplicate paths, even when
the server list holds duplicate records for one path. -/
theorem findChangedFiles_nodup (lh : LocalHashes) (s : List ServerFile)
    (hnd : (lh.map Prod.fst).Nodup) :
    (findChangedFiles lh s).upload.Nodup ∧ (findChangedFiles lh s).download.Nodup :=
  ⟨(upload_sublist lh s).nodup hnd, download_nodup lh s⟩

/-- Witness for C9 at a server list with a duplicated record. -/
theorem findChangedFiles_nodup_witness :
    (findChangedFiles [("b", "x")] [⟨"a", "h"⟩, ⟨"a", "h"⟩]).upload.Nodup ∧
    (findChangedFiles [("b", "x")] [⟨"a", "h"⟩, ⟨"a", "h"⟩]).download.Nodup :=
  findChangedFiles_nodup [("b", "x")] [⟨"a", "h"⟩, ⟨"a", "h"⟩] (by decide)

/-! ## Theorems: §4.2 Local Tree Scanner (claims C3, C10) -/

theorem beq_eq_false_of_jsEndsWith_js {s : String} (hjs : jsEndsWith s ".js" = true)
    (t : String) : (s == t ++ ".ts") = false := by
  rw [beq_eq_false_iff_ne]
  intro heq
  rw [heq] at hjs
  unfold jsEndsWith at hjs
  rw [List.isSuffixOf_iff_suffix, String.data_append] at hjs
  have hj : (".js" : String).data = ['.', 'j', 's'] := by decide
  have ht : (".ts" : String).data = ['.', 't', 's'] := by decide
  rw [hj, ht] at hjs
  have h2 : (['.', 't', 's'] : List Char) <:+ t.data ++ ['.', 't', 's'] :=
    List.suffix_append _ _
  have h3 : (['.', 'j', 's'] : List Char) <:+ ['.', 't', 's'] :=
    List.suffix_of_suffix_length_le hjs h2 (by decide)
  have h4 : (['.', 'j', 's'] : List Char) = ['.', 't', 's'] :=
    h3.eq_of_length (by decide)
  exact absurd h4 (by decide)

theorem skipEntry_erase_js (l1 l2 : List FSEntry) (e : FSEntry)
    (hjs : jsEndsWith e.name ".js" = true) (x : FSEntry) :
    skipEntry (l1 ++ e :: l2) x = skipEntry (l1 ++ l2) x := by
  have hne : (e.name == jsDropRight x.name 3 ++ ".ts") = false :=
    beq_eq_false_of_jsEndsWith_js hjs _
  unfold skipEntry
  have hEq : hasEntryNamed (l1 ++ e :: l2) (jsDropRight x.name 3 ++ ".ts")
      = hasEntryNamed (l1 ++ l2) (jsDropRight x.name 3 ++ ".ts") := by
    simp [hasEntryNamed, hne]
  rw [hEq]

theorem scanDirEntries_append (all : List FSEntry) (p q : List FSEntry) (base : String) :
    scanDirEntries all (p ++ q) base
      = scanDirEntries all p base ++ scanDirEntries all q base := by
  induction p with
  | nil => simp [scanDirEntries]
  | cons e rest ih =>
    rw [List.cons_append]
    rw [scanDirEntries, scanDirEntries]
    · rw [ih, List.append_assoc]

theorem scanDirEntries_congr (all all' : List FSEntry)
    (h : ∀ x, skipEntry all x = skipEntry all' x) (p : List FSEntry) (base : String) :
    scanDirEntries all p base = scanDirEntries all' p base := by
  induction p with
  | nil => simp [scanDirEntries]
  | cons e rest ih =>
    rw [scanDirEntries, scanDirEntries]
    rw [h e, ih]

/-- C10: the compiled-output exclusion is tested before the directory/file
branch, so a directory entry whose name ends in `.js` that has a sibling entry
named with the same base and `.ts` is skipped whole: the scan of the listing
with it equals the scan of the listing without it, and nothing beneath it is
produced. -/
theorem scan_skips_js_entry (l1 l2 : List FSEntry) (e : FSEntry) (base : String)
    (hjs : jsEndsWith e.name ".js" = true)
    (hts : hasEntryNamed (l1 ++ e :: l2) (jsDropRight e.name 3 ++ ".ts") = true) :
    scanDirEntries (l1 ++ e :: l2) (l1 ++ e :: l2) base
      = scanDirEntries (l1 ++ l2) (l1 ++ l2) base := by
  have hcongr : ∀ x, skipEntry (l1 ++ e :: l2) x = skipEntry (l1 ++ l2) x :=
    fun x => skipEntry_erase_js l1 l2 e hjs x
  have hskip : skipEntry (l1 ++ e :: l2) e = true := by
    unfold skipEntry
    rw [hjs, hts]
    simp
  rw [scanDirEntries_append (l1 ++ e :: l2) l1 (e :: l2) base]
  have h1 : scanDirEntries (l1 ++ e :: l2) (e :: l2) base
      = scanDirEntries (l1 ++ e :: l2) l2 base := by
    rw [scanDirEntries]
    rw [hskip]
    simp
  rw [h1, scanDirEntries_append (l1 ++ l2) l1 l2 base,
    scanDirEntries_congr _ _ hcongr l1 base, scanDirEntries_congr _ _ hcongr l2 base]

/-- Witness for C10: a directory `a.js` (holding a file `b`) next to a file
`a.ts` contributes nothing to the scan. -/
theorem scan_skips_js_entry_witness :
    scanDirEntries [FSEntry.file "a.ts" [], FSEntry.dir "a.js" [FSEntry.file "b" [1]]]
        [FSEntry.file "a.ts" [], FSEntry.dir "a.js" [FSEntry.file "b" [1]]] ""
      = scanDirEntries [FSEntry.file "a.ts" []] [FSEntry.file "a.ts" []] "" :=
  scan_skips_js_entry [FSEntry.file "a.ts" []] []
    (FSEntry.dir "a.js" [FSEntry.file "b" [1]]) "" (by decide) (by decide)

theorem mem_scanDirEntries_pending (all : List FSEntry) (base : String)
    (pending : List FSEntry) (pr : String × List Nat) :
    pr ∈ scanDirEntries all pending base ↔
      ∃ e ∈ pending, skipEntry all e = false ∧ pr ∈ scanOne e base := by
  induction pending with
  | nil => simp [scanDirEntries]
  | cons e rest ih =>
    rw [scanDirEntries]
    by_cases hs : skipEntry all e = true
    · rw [if_pos hs]
      simp only [List.nil_append, ih, List.exists_mem_cons_iff]
      constructor
      · intro h; exact Or.inr h
      · rintro (⟨hfalse, _⟩ | h)
        · rw [hs] at hfalse; cases hfalse
        · exact h
    · have hs' : skipEntry all e = false := by simpa using hs
      rw [if_neg hs]
      simp only [List.mem_append, ih, List.exists_mem_cons_iff, hs']
      tauto

theorem excludedAmended_eq_skipEntry (sib : List FSEntry) (e : FSEntry) :
    excludedAmended sib e = skipEntry sib e := rfl

theorem scan_mem_backward (entries : List FSEntry) (comps : List String) (c : List Nat)
    (hreach : ReachesFile entries comps c) :
    ∀ base : String, (comps.foldl joinPath base, c) ∈ scanDirEntries entries entries base := by
  induction hreach with
  | here entries n c hmem hskip =>
    intro base
    rw [mem_scanDirEntries_pending]
    refine ⟨.file n c, hmem, ?_, ?_⟩
    · rw [← excludedAmended_eq_skipEntry]; exact hskip
    · simp [scanOne]
  | there entries n sub p c hmem hskip hsub ih =>
    intro base
    rw [mem_scanDirEntries_pending]
    refine ⟨.dir n sub, hmem, ?_, ?_⟩
    · rw [← excludedAmended_eq_skipEntry]; exact hskip
    · rw [scanOne]
      exact ih (joinPath base n)

theorem scan_mem_forward (entries : List FSEntry) (base : String) (pr : String × List Nat)
    (hmem : pr ∈ scanDirEntries entries entries base) :
    ∃ comps c, ReachesFile entries comps c ∧ pr = (comps.foldl joinPath base, c) := by
  rw [mem_scanDirEntries_pending] at hmem
  obtain ⟨e, he, hskip, hone⟩ := hmem
  cases e with
  | file n c =>
    rw [scanOne, List.mem_singleton] at hone
    refine ⟨[n], c, ReachesFile.here entries n c he ?_, by simpa using hone⟩
    rw [excludedAmended_eq_skipEntry]; exact hskip
  | dir n sub =>
    rw [scanOne] at hone
    obtain ⟨comps, c, hreach, rfl⟩ :=
      scan_mem_forward sub (joinPath base n) pr hone
    refine ⟨n :: comps, c,
      ReachesFile.there entries n sub comps c he ?_ hreach, by simp⟩
    rw [excludedAmended_eq_skipEntry]; exact hskip
termination_by sizeOf entries
decreasing_by
  have h1 := List.sizeOf_lt_of_mem he
  simp only [FSEntry.dir.sizeOf_spec] at h1
  omega

/-- C3 (amended): the mapping computeLocalHashes produces contains exactly the
regular files reachable without exclusion, where the rules are: hidden names
except `.gitignore` are excluded; a directory named `types` is excluded; any
entry named `node_modules` is excluded; any entry — file or directory — whose
name ends in `.js` is excluded when a sibling entry of either kind named with
the same base and `.ts` exists; excluded directories are not descended into;
and every included file's path maps to the blob hash of its full content. -/
theorem computeLocalHashes_exact (root : List FSEntry) (p h : String) :
    (p, h) ∈ computeLocalHashes root ↔
      ∃ comps c, ReachesFile root comps c ∧ p = comps.foldl joinPath "" ∧
        h = computeGitBlobHash c := by
  unfold computeLocalHashes getAllFiles
  rw [List.mem_map]
  constructor
  · rintro ⟨⟨q, c⟩, hmem, heq⟩
    obtain ⟨comps, c', hreach, hpr⟩ := scan_mem_forward root "" (q, c) hmem
    have h1 : q = comps.foldl joinPath "" := congrArg Prod.fst hpr
    have h2 : c = c' := congrArg Prod.snd hpr
    have h3 : p = q := (congrArg Prod.fst heq).symm
    have h4 : h = computeGitBlobHash c := (congrArg Prod.snd heq).symm
    exact ⟨comps, c, h2 ▸ hreach, h3.trans h1, h4⟩
  · rintro ⟨comps, c, hreach, rfl, rfl⟩
    exact ⟨(comps.foldl joinPath "", c), scan_mem_backward root comps c hreach "", rfl⟩

/-- C3 as stated is false on the code: in a root holding the file `a.js` and
an (empty) DIRECTORY `a.ts`, `existsSync` finds the directory, so the code
excludes `a.js` and maps nothing, while the claim's rules — which demand a
sibling `.ts` FILE — include `a.js`. -/
theorem computeLocalHashes_claim_counterexample :
    (computeLocalHashes [FSEntry.file "a.js" [97], FSEntry.dir "a.ts" []]).map Prod.fst = []
    ∧ (scanDirEntriesClaimed [FSEntry.file "a.js" [97], FSEntry.dir "a.ts" []]
        [FSEntry.file "a.js" [97], FSEntry.dir "a.ts" []] "").map Prod.fst = ["a.js"] := by
  constructor
  · simp only [computeLocalHashes, getAllFiles, scanDirEntries, scanOne]
    decide
  · simp only [scanDirEntriesClaimed, scanOneClaimed]
    decide

/-! ## Theorems: §4.4 Sync orchestration (claims C6, C7) -/

theorem getHash_map_set (m : List (String × String)) (p h q : String) :
    getHash (m.map (fun x => if (x.1 == p) = true then (x.1, h) else x)) q
      = if q = p then (getHash m p).map (fun _ => h) else getHash m q := by
  induction m with
  | nil => by_cases hq : q = p <;> simp [getHash, hq]
  | cons r rest ih =>
    rw [List.map_cons]
    by_cases hq : q = p
    · subst hq
      rw [if_pos rfl]
      rw [if_pos rfl] at ih
      by_cases hr : r.1 = q
      · have hfr : (if (r.1 == q) = true then (r.1, h) else r) = (r.1, h) := by simp [hr]
        rw [hfr]
        unfold getHash
        rw [List.find?_cons_of_pos, List.find?_cons_of_pos]
        all_goals simp [hr]
      · have hfr : (if (r.1 == q) = true then (r.1, h) else r) = r := by simp [hr]
        rw [hfr]
        unfold getHash at ih ⊢
        rw [List.find?_cons_of_neg, List.find?_cons_of_neg]
        · exact ih
        · simpa using hr
        · simpa using hr
    · rw [if_neg hq]
      rw [if_neg hq] at ih
      by_cases hr : r.1 = q
      · have hrp : ¬ r.1 = p := by rw [hr]; exact hq
        have hfr : (if (r.1 == p) = true then (r.1, h) else r) = r := by simp [hrp]
        rw [hfr]
        unfold getHash
        rw [List.find?_cons_of_pos, List.find?_cons_of_pos]
        all_goals simp [hr]
      · have hfrq : ((if (r.1 == p) = true then (r.1, h) else r).1 == q) = false := by
          by_cases hc : r.1 = p
          · simp [hc]
            exact fun hh => hq hh.symm
          · simp [hc, hr]
        unfold getHash at ih ⊢
        rw [List.find?_cons_of_neg, List.find?_cons_of_neg]
        · exact ih
        all_goals first
          | simpa using hr
          | simpa using hfrq

theorem getHash_setHash_self (m : LocalHashes) (p h : String) :
    getHash (setHash m p h) p = some h := by
  unfold setHash
  by_cases hany : m.any (fun q => q.1 == p) = true
  · rw [if_pos hany, getHash_map_set, if_pos rfl]
    have hsome : (m.find? (fun x => x.1 == p)).isSome = true := by
      rw [List.find?_isSome]
      rcases List.any_eq_true.mp hany with ⟨x, hx, hpx⟩
      exact ⟨x, hx, hpx⟩
    rcases hfind : m.find? (fun x => x.1 == p) with _ | v
    · rw [hfind] at hsome; cases hsome
    · unfold getHash
      rw [hfind]
      rfl
  · rw [if_neg hany]
    unfold getHash
    rw [List.find?_append]
    have hnone : m.find? (fun q => q.1 == p) = none := by
      rw [List.find?_eq_none]
      intro x hx hpx
      exact hany (List.any_eq_true.mpr ⟨x, hx, hpx⟩)
    rw [hnone]
    simp [List.find?]

theorem getHash_setHash_other (m : LocalHashes) (p h q : String) (hne : q ≠ p) :
    getHash (setHash m p h) q = getHash m q := by
  unfold setHash
  by_cases hany : m.any (fun r => r.1 == p) = true
  · rw [if_pos hany, getHash_map_set, if_neg hne]
  · rw [if_neg hany]
    unfold getHash
    rw [List.find?_append]
    have hlast : ([(p, h)].find? (fun r => r.1 == q)) = none := by
      rw [List.find?_eq_none]
      intro x hx hpx
      rw [List.mem_singleton] at hx
      subst hx
      exact hne.symm (by simpa using hpx)
    rw [hlast, Option.or_none]

theorem getHash_applyUploadResults_notmem (rs : List SyncResult) :
    ∀ (m : LocalHashes) (p : String), p ∉ rs.map SyncResult.path →
      getHash (applyUploadResults m rs) p = getHash m p := by
  induction rs with
  | nil => intro m p _; rfl
  | cons r rest ih =>
    intro m p hp
    rw [List.map_cons, List.mem_cons] at hp
    push_neg at hp
    have hstep : applyUploadResults m (r :: rest)
        = applyUploadResults (setHash m r.path r.hash) rest := rfl
    rw [hstep, ih _ p hp.2, getHash_setHash_other _ _ _ _ hp.1]

theorem getHash_applyUploadResults_mem (rs : List SyncResult) :
    ∀ m : LocalHashes, (rs.map SyncResult.path).Nodup → ∀ r ∈ rs,
      getHash (applyUploadResults m rs) r.path = some r.hash := by
  induction rs with
  | nil => intro m _ r hr; cases hr
  | cons r0 rest ih =>
    intro m hnd r hr
    have hstep : applyUploadResults m (r0 :: rest)
        = applyUploadResults (setHash m r0.path r0.hash) rest := rfl
    rw [List.map_cons, List.nodup_cons] at hnd
    rcases List.mem_cons.mp hr with rfl | hr'
    · rw [hstep, getHash_applyUploadResults_notmem rest _ _ hnd.1, getHash_setHash_self]
    · rw [hstep]
      exact ih _ hnd.2 r hr'

theorem getHash_applyDownload_other (sf : List ServerFile) (m : LocalHashes) (p q : String)
    (hne : q ≠ p) : getHash (applyDownload sf m p) q = getHash m q := by
  unfold applyDownload
  split
  · exact getHash_setHash_other _ _ _ _ hne
  · rfl

theorem getHash_applyDownload_found (sf : List ServerFile) (m : LocalHashes) (p : String)
    (f : ServerFile) (hfind : sf.find? (fun g => g.path == p) = some f) :
    getHash (applyDownload sf m p) p = some f.hash := by
  unfold applyDownload
  rw [hfind]
  exact getHash_setHash_self m p f.hash

theorem getHash_foldl_applyDownload_notmem (sf : List ServerFile) (ps : List String) :
    ∀ (m : LocalHashes) (p : String), p ∉ ps →
      getHash (ps.foldl (applyDownload sf) m) p = getHash m p := by
  induction ps with
  | nil => intro m p _; rfl
  | cons q rest ih =>
    intro m p hp
    rw [List.mem_cons] at hp
    push_neg at hp
    rw [List.foldl_cons, ih _ p hp.2, getHash_applyDownload_other sf m q p hp.1]

theorem getHash_foldl_applyDownload_mem (sf : List ServerFile) (ps : List String) :
    ∀ (m : LocalHashes) (p : String) (f : ServerFile), ps.Nodup → p ∈ ps →
      sf.find? (fun g => g.path == p) = some f →
      getHash (ps.foldl (applyDownload sf) m) p = some f.hash := by
  induction ps with
  | nil => intro m p f _ hp _; cases hp
  | cons q rest ih =>
    intro m p f hnd hp hfind
    rw [List.foldl_cons]
    rw [List.nodup_cons] at hnd
    rcases List.mem_cons.mp hp with rfl | hp'
    · rw [getHash_foldl_applyDownload_notmem sf rest _ _ hnd.1]
      exact getHash_applyDownload_found sf m p f hfind
    · exact ih _ _ _ hnd.2 hp' hfind

theorem downloadPhase_foldl (fetch : String → Option (List Nat)) (sf : List ServerFile)
    (ps : List String) :
    ∀ (ws : List String) (m : LocalHashes),
      ps.foldl (downloadStep fetch sf) (ws, m)
        = (ws ++ ps.filter (fun p => (fetch p).isNone),
           (ps.filter (fun p => (fetch p).isSome)).foldl (applyDownload sf) m) := by
  induction ps with
  | nil => intro ws m; simp
  | cons p rest ih =>
    intro ws m
    rw [List.foldl_cons]
    rcases hf : fetch p with _ | c
    · have hstep : downloadStep fetch sf (ws, m) p = (ws ++ [p], m) := by
        unfold downloadStep
        rw [hf]
      rw [hstep, ih]
      simp [List.filter_cons, hf]
    · have hstep : downloadStep fetch sf (ws, m) p = (ws, applyDownload sf m p) := by
        unfold downloadStep
        rw [hf]
      rw [hstep, ih]
      simp [List.filter_cons, hf]

/-- C7: the download loop never aborts: for every fetch oracle, every path of
the download set is attempted in order, each failing path (and only those)
ends up reported as a per-file warning, the server hashes of all succeeding
paths are still applied, and the phase — being a total function — always
returns so the sync run continues to its success exit. -/
theorem sync_download_failures (lh : LocalHashes) (sf : List ServerFile)
    (results : List SyncResult) (fetch : String → Option (List Nat)) :
    (syncModel lh sf results fetch).1
      = (findChangedFiles lh sf).download.filter (fun p => (fetch p).isNone) ∧
    (syncModel lh sf results fetch).2
      = ((findChangedFiles lh sf).download.filter (fun p => (fetch p).isSome)).foldl
          (applyDownload sf) (applyUploadResults lh results) := by
  unfold syncModel downloadPhase
  rw [downloadPhase_foldl]
  simp

/-- C6: after a sync run whose upload request succeeded (the batch response
confirms exactly the upload set) and whose downloads all succeeded, the
mapping handed to saveLocalHashes maps every uploaded path to the
server-confirmed fingerprint of the upload response, every downloaded path to
the server-reported fingerprint found in the manifest, and every other path to
the fingerprint the scan computed. -/
theorem sync_final_hashes (lh : LocalHashes) (sf : List ServerFile)
    (results : List SyncResult) (fetch : String → Option (List Nat))
    (hnd : (lh.map Prod.fst).Nodup)
    (hres : results.map SyncResult.path = (findChangedFiles lh sf).upload)
    (hfetch : ∀ p ∈ (findChangedFiles lh sf).download, (fetch p).isSome = true) :
    (∀ r ∈ results, getHash (syncModel lh sf results fetch).2 r.path = some r.hash) ∧
    (∀ p ∈ (findChangedFiles lh sf).download, ∀ f : ServerFile,
      sf.find? (fun g => g.path == p) = some f →
      getHash (syncModel lh sf results fetch).2 p = some f.hash) ∧
    (∀ p, p ∉ (findChangedFiles lh sf).upload → p ∉ (findChangedFiles lh sf).download →
      getHash (syncModel lh sf results fetch).2 p = getHash lh p) := by
  have hsnd : (syncModel lh sf results fetch).2
      = ((findChangedFiles lh sf).download).foldl (applyDownload sf)
          (applyUploadResults lh results) := by
    unfold syncModel downloadPhase
    rw [downloadPhase_foldl]
    rw [List.filter_eq_self.mpr hfetch]
  refine ⟨?_, ?_, ?_⟩
  · intro r hr
    have hpath : r.path ∈ (findChangedFiles lh sf).upload := by
      rw [← hres]
      exact List.mem_map.mpr ⟨r, hr, rfl⟩
    have hnotdl : r.path ∉ (findChangedFiles lh sf).download :=
      fun hdl => disjoint_upload_download lh sf r.path hpath hdl
    have hndres : (results.map SyncResult.path).Nodup := by
      rw [hres]
      exact (upload_sublist lh sf).nodup hnd
    rw [hsnd, getHash_foldl_applyDownload_notmem sf _ _ _ hnotdl]
    exact getHash_applyUploadResults_mem results lh hndres r hr
  · intro p hp f hfind
    rw [hsnd]
    exact getHash_foldl_applyDownload_mem sf _ _ p f (download_nodup lh sf) hp hfind
  · intro p hup hdl
    rw [hsnd, getHash_foldl_applyDownload_notmem sf _ _ _ hdl]
    apply getHash_applyUploadResults_notmem
    rw [hres]
    exact hup

/-- Witness for C6: local scan {b ↦ x}, server manifest [(c, hc)]; the upload
response confirms b with hash nb and every download succeeds; the persisted
mapping then maps b to nb. -/
theorem sync_final_hashes_witness :
    getHash (syncModel [("b", "x")] [⟨"c", "hc"⟩] [⟨"b", "nb", []⟩]
      (fun _ => some [])).2 "b" = some "nb" :=
  (sync_final_hashes [("b", "x")] [⟨"c", "hc"⟩] [⟨"b", "nb", []⟩] (fun _ => some [])
    (by decide) (by decide) (by decide)).1 ⟨"b", "nb", []⟩ (by decide)
